import Mathlib

set_option maxRecDepth 8000

/-!
Shallow embedding of the Signal Extraction & Aggregation Engine of
`src/scraper.py` (class `JobMarketAnalyzer`).

Strings are modelled as `List Char` (`Str`); character classes follow the
ASCII behaviour of the Python regular-expression escapes used by the source
(`\s`, `\w`, `[a-zA-Z]`, `\d`).  The three `re.findall` scans of
`_analyze_post` are embedded as executable scanners that reproduce the
leftmost, alternation-ordered, greedy-with-backtracking semantics of the
concrete patterns in the source, including word boundaries.
-/

abbrev Str := List Char

/-- Python whitespace (`\s`, `str.split()`, `str.strip()`), ASCII fragment. -/
def pyWs (c : Char) : Bool :=
  c = ' ' || c = '\t' || c = '\n' || c = '\r' || c = '\x0b' || c = '\x0c'

/-- Python word character (`\w`), ASCII fragment: used for `\b` boundaries. -/
def pyWord (c : Char) : Bool :=
  c.isAlpha || c.isDigit || c = '_'

/-- Character class `[a-zA-Z\s,]` of the location pattern. -/
def locClass (c : Char) : Bool :=
  c.isAlpha || pyWs c || c = ','

/-- Character class `[a-zA-Z\s]` of the title pattern. -/
def titleClass (c : Char) : Bool :=
  c.isAlpha || pyWs c

def isDig (c : Char) : Bool := c.isDigit

/-- `post.split()`: split on runs of whitespace, no empty tokens.
The first argument is the remaining input, the second the current token,
accumulated in reverse. -/
def splitAux : Str → Str → List Str
  | [], [] => []
  | [], cur => [cur.reverse]
  | c :: rest, cur =>
    if pyWs c then
      if cur.isEmpty then splitAux rest [] else cur.reverse :: splitAux rest []
    else splitAux rest (c :: cur)

def pySplit (s : Str) : List Str := splitAux s []

/-- The fixed punctuation strip set of `_analyze_post`:
the characters of the Python literal between quotes are
period, comma, slash, colon, semicolon, bang, at, parens, square and curly
brackets, single quote and double quote (codes 123/125/39/34 are the curly
brackets, the single quote and the double quote). -/
def punctSet : List Char :=
  ['.', ',', '/', ':', ';', '!', '@', '(', ')', '[', ']',
   Char.ofNat 123, Char.ofNat 125, Char.ofNat 39, Char.ofNat 34]

def isPunct (c : Char) : Bool := punctSet.contains c

/-- `word.strip(".,/:;!@()[]{}\x27\x22")`: drop strip-set characters from
both ends of a token. -/
def stripTok (s : Str) : Str :=
  ((s.dropWhile isPunct).reverse.dropWhile isPunct).reverse

/-- `phrase.strip()`: drop whitespace from both ends. -/
def stripWs (s : Str) : Str :=
  ((s.dropWhile pyWs).reverse.dropWhile pyWs).reverse

/-- The token set built by `_analyze_post`
(`{word.strip(...) for word in post.split()}`); only membership in it is
ever used, so a list models the Python set faithfully. -/
def wordsOf (post : String) : List String :=
  (pySplit post.data).map (fun t => String.mk (stripTok t))

/-- The fixed technology vocabulary, in the key order of the source dict. -/
def vocab : List String :=
  ["python", "javascript", "typescript", "java", "c#", "c++", "go", "rust",
   "ruby", "php", "swift", "kotlin", "scala", "dart", "react", "angular",
   "vue", "node", "django", "flask", "aws", "azure", "gcp", "docker",
   "kubernetes", "sql", "nosql", "mongodb", "postgresql", "mysql"]

/-! ### Python dicts as insertion-ordered association lists -/

abbrev Dict := List (String × Nat)

/-- Dict lookup with the defaultdict default 0. -/
def dget : Dict → String → Nat
  | [], _ => 0
  | (k, v) :: rest, key => if k = key then v else dget rest key

/-- `d[key] += 1` on a `defaultdict(int)`: bump the entry in place, or
append a fresh entry with count 1. -/
def dinc : Dict → String → Dict
  | [], key => [(key, 1)]
  | (k, v) :: rest, key =>
    if k = key then (k, v + 1) :: rest else (k, v) :: dinc rest key

/-- `d[key] = c`: assign in place, or append a fresh entry. -/
def dset : Dict → String → Nat → Dict
  | [], key, c => [(key, c)]
  | (k, v) :: rest, key, c =>
    if k = key then (k, c) :: rest else (k, v) :: dset rest key c

def hasKey (d : Dict) (key : String) : Bool :=
  d.any (fun p => p.1 = key)

/-- Total number of recorded signals in one counter map. -/
def dtotal (d : Dict) : Nat := (d.map Prod.snd).sum

/-- `self.technologies` as initialised in `__init__`: every vocabulary key
mapped to 0. -/
def initTech : Dict := vocab.map (fun k => (k, 0))

/-- In-memory state of a `JobMarketAnalyzer`. -/
structure St where
  technologies : Dict
  locations : Dict
  salary_ranges : Dict
  job_titles : Dict
  job_posts : List String

def initSt : St :=
  { technologies := initTech, locations := [], salary_ranges := [],
    job_titles := [], job_posts := [] }

/-! ### The location and title scans

Pattern `\b(located in|based in|remote|hybrid|onsite|in)\s+([a-zA-Z\s,]+)`
and pattern `\b(looking for|seeking|position|role)\s+([a-zA-Z\s]+)\b`,
with `re.findall` semantics. -/

/-- Match a literal against a prefix of the input, returning the rest. -/
def dropPat : Str → Str → Option Str
  | [], s => some s
  | _ :: _, [] => none
  | p :: ps, c :: cs => if c = p then dropPat ps cs else none

def locAnchors : List Str :=
  [("located in").data, ("based in").data, ("remote").data,
   ("hybrid").data, ("onsite").data, ("in").data]

def titleAnchors : List Str :=
  [("looking for").data, ("seeking").data, ("position").data, ("role").data]

/-- Tail of the location pattern after the anchor: `\s+([a-zA-Z\s,]+)`.
`\s+` greedily takes the maximal whitespace run of length `m`; since the
class contains `\s`, backtracking gives: if a class character follows the
run, the capture is the maximal class run after it; otherwise, when `m ≥ 2`,
`\s+` gives one character back and the capture is that single whitespace
character; when `m = 1` the tail fails.  Returns (capture, rest of input
after the whole match). -/
def tryLocTail (r : Str) : Option (Str × Str) :=
  let w := r.takeWhile pyWs
  if w.isEmpty then none
  else
    let r1 := r.drop w.length
    let t := r1.takeWhile locClass
    if t.isEmpty then
      if 2 ≤ w.length then some ([w.getLastD ' '], r1) else none
    else some (t, r1.drop t.length)

def headWord (s : Str) : Bool :=
  match s with
  | [] => false
  | c :: _ => pyWord c

/-- Backtracking of a trailing `\b` over a greedy class run: the run is
passed reversed; give characters back (longest first) until the boundary
between the run and the rest holds. -/
def shrinkBd : Str → Str → Option (Str × Str)
  | [], _ => none
  | c :: rs, after =>
    if (pyWord c ≠ headWord after) then some ((c :: rs).reverse, after)
    else shrinkBd rs (c :: after)

/-- Backtracking of `\s+` for the title tail: the whitespace consumed by
`\s+` is passed reversed (so its head is the last consumed character); at
each step try the trailing-boundary backtracking on the current class run,
then give one whitespace character back to the run, keeping at least one
character in `\s+`. -/
def titleTailLoop : Str → Str → Str → Option (Str × Str)
  | [], _, _ => none
  | [_], run, after => shrinkBd run.reverse after
  | c :: c2 :: rs, run, after =>
    match shrinkBd run.reverse after with
    | some res => some res
    | none => titleTailLoop (c2 :: rs) (c :: run) after

/-- Tail of the title pattern after the anchor: `\s+([a-zA-Z\s]+)\b`. -/
def tryTitleTail (r : Str) : Option (Str × Str) :=
  let w := r.takeWhile pyWs
  if w.isEmpty then none
  else
    let r1 := r.drop w.length
    let t := r1.takeWhile titleClass
    titleTailLoop w.reverse t (r1.drop t.length)

/-- Try the alternation: anchors in pattern order; an anchor whose literal
matches but whose tail fails falls through to the next alternative.
Returns (group 1, group 2, rest of input after the match). -/
def tryAnchors (tail : Str → Option (Str × Str)) :
    List Str → Str → Option (Str × Str × Str)
  | [], _ => none
  | a :: rest, s =>
    match dropPat a s with
    | some r =>
      match tail r with
      | some (g, after) => some (a, g, after)
      | none => tryAnchors tail rest s
    | none => tryAnchors tail rest s

def tryLocAt (s : Str) : Option (Str × Str × Str) :=
  tryAnchors tryLocTail locAnchors s

def tryTitleAt (s : Str) : Option (Str × Str × Str) :=
  tryAnchors tryTitleTail titleAnchors s

/-- `re.findall` scan for the anchored patterns.  `prevW` records whether
the character before the current position is a word character; every
anchor starts with a letter, so the leading `\b` holds at a position
exactly when `prevW` is false there.  The fuel argument dominates the
input length, so it never runs out.  Returns the (group 1, group 2) pairs
of the non-overlapping matches, leftmost first. -/
def scanB (tryAt : Str → Option (Str × Str × Str)) :
    Nat → Bool → Str → List (Str × Str)
  | 0, _, _ => []
  | _ + 1, _, [] => []
  | fuel + 1, prevW, c :: rest =>
    match (if prevW then none else tryAt (c :: rest)) with
    | some (a, g, after) =>
      (a, g) :: scanB tryAt fuel (pyWord (g.getLastD ' ')) after
    | none => scanB tryAt fuel (pyWord c) rest

def locMatches (post : String) : List (Str × Str) :=
  scanB tryLocAt (post.data.length + 1) false post.data

def titleMatches (post : String) : List (Str × Str) :=
  scanB tryTitleAt (post.data.length + 1) false post.data

/-! ### The salary scan: `re.findall(r"\$(\d{2,3}k|\d{3},\d{3})", post)` -/

/-- Greedy first try of `\d{2,3}k`: three digits then the letter k. -/
def salAlt3k : Str → Option (Str × Str)
  | d1 :: d2 :: d3 :: 'k' :: rest =>
    if isDig d1 && isDig d2 && isDig d3 then some ([d1, d2, d3, 'k'], rest)
    else none
  | _ => none

/-- Backtracked `\d{2,3}k`: two digits then the letter k. -/
def salAlt2k : Str → Option (Str × Str)
  | d1 :: d2 :: 'k' :: rest =>
    if isDig d1 && isDig d2 then some ([d1, d2, 'k'], rest) else none
  | _ => none

/-- Second alternative `\d{3},\d{3}`. -/
def salAltGrouped : Str → Option (Str × Str)
  | d1 :: d2 :: d3 :: ',' :: d4 :: d5 :: d6 :: rest =>
    if isDig d1 && isDig d2 && isDig d3 && isDig d4 && isDig d5 && isDig d6
    then some ([d1, d2, d3, ',', d4, d5, d6], rest)
    else none
  | _ => none

/-- Match attempt at one position: a dollar sign, then the alternation in
pattern order with `{2,3}` tried greedily.  Returns (group 1, rest). -/
def trySalAt : Str → Option (Str × Str)
  | '$' :: r =>
    match salAlt3k r with
    | some res => some res
    | none =>
      match salAlt2k r with
      | some res => some res
      | none => salAltGrouped r
  | _ => none

/-- The salary pattern has no `\b`, so the scan needs no context. -/
def salScan : Nat → Str → List Str
  | 0, _ => []
  | _ + 1, [] => []
  | fuel + 1, c :: rest =>
    match trySalAt (c :: rest) with
    | some (g, after) => g :: salScan fuel after
    | none => salScan fuel rest

def salMatches (post : String) : List String :=
  (salScan (post.data.length + 1) post.data).map String.mk

/-! ### `_analyze_post` -/

/-- `for tech in self.technologies: if tech in words: self.technologies[tech] += 1`:
each entry is bumped once when its key is a token of the post. -/
def techUpdate (d : Dict) (ws : List String) : Dict :=
  d.map (fun p => if p.1 ∈ ws then (p.1, p.2 + 1) else p)

/-- `matches = re.findall(location_pattern, post); if matches:
self.locations[matches[0][1].strip()] += 1`. -/
def locUpdate (d : Dict) (post : String) : Dict :=
  match locMatches post with
  | [] => d
  | m :: _ => dinc d (String.mk (stripWs m.2))

/-- `for salary in re.findall(salary_pattern, post): self.salary_ranges[salary] += 1`. -/
def salUpdate (d : Dict) (post : String) : Dict :=
  (salMatches post).foldl (fun acc s => dinc acc s) d

/-- `title_matches = re.findall(title_pattern, post); if title_matches:
self.job_titles[title_matches[0][1].strip()] += 1`. -/
def titleUpdate (d : Dict) (post : String) : Dict :=
  match titleMatches post with
  | [] => d
  | m :: _ => dinc d (String.mk (stripWs m.2))

/-- `JobMarketAnalyzer._analyze_post`. -/
def analyzePost (st : St) (post : String) : St :=
  { st with
    technologies := techUpdate st.technologies (wordsOf post)
    locations := locUpdate st.locations post
    salary_ranges := salUpdate st.salary_ranges post
    job_titles := titleUpdate st.job_titles post }

/-- Analysing a run of posts in sequence, as the scrapers do. -/
def runPosts (st : St) (posts : List String) : St :=
  posts.foldl analyzePost st

/-! ### The persistent store and `_update_db` / `load_from_db` -/

/-- One store table: rows of (key, count); the UNIQUE column constraint of
the schema corresponds to distinct keys. -/
structure Db where
  technologies : Dict
  locations : Dict
  salaries : Dict
  job_titles : Dict
  job_posts : List (String × String)

def emptyDb : Db :=
  { technologies := [], locations := [], salaries := [], job_titles := [],
    job_posts := [] }

/-- `INSERT OR IGNORE ... ON CONFLICT(key) DO UPDATE SET count = count +
excluded.count`: insert a fresh row, or add to the existing row. -/
def upsertAdd : Dict → String → Nat → Dict
  | [], key, c => [(key, c)]
  | (k, v) :: rest, key, c =>
    if k = key then (k, v + c) :: rest else (k, v) :: upsertAdd rest key c

/-- Row lookup in a table. -/
def dbget : Dict → String → Option Nat
  | [], _ => none
  | (k, v) :: rest, key => if k = key then some v else dbget rest key

/-- One `for key, count in mapping.items(): upsert` loop of `_update_db`. -/
def upsertAll (t : Dict) (entries : Dict) : Dict :=
  entries.foldl (fun acc p => upsertAdd acc p.1 p.2) t

/-- `JobMarketAnalyzer._update_db`: upsert-with-addition of all four counter
maps, then append every in-memory post to `job_posts` with the literal
source label of line 139. -/
def updateDb (st : St) (db : Db) : Db :=
  { technologies := upsertAll db.technologies st.technologies
    locations := upsertAll db.locations st.locations
    salaries := upsertAll db.salaries st.salary_ranges
    job_titles := upsertAll db.job_titles st.job_titles
    job_posts := db.job_posts ++ st.job_posts.map (fun p => ("Hacker News", p)) }

/-- The distinct persistence failure kind: `_update_db` contains no
exception handler, so a sqlite3 error propagates to the caller. -/
inductive PersistenceError
  | sqliteError

/-- `_update_db` as observed by the caller, with the possibility of a
persistence failure.  The method body only reads the in-memory counters
(it assigns to no field of `self`), so the memory component of the result
is the input state in both branches; the `with sqlite3.connect` block
commits on success and rolls the transaction back on an exception, so on
failure the caller keeps the old store and receives the error. -/
def updateDbTry (st : St) (db : Db) (writeOk : Bool) :
    St × Except PersistenceError Db :=
  (st, if writeOk then Except.ok (updateDb st db)
       else Except.error PersistenceError.sqliteError)

/-- The technology loop of `load_from_db`: `if name in self.technologies:
self.technologies[name] = count` — assignment, only for vocabulary keys. -/
def loadTech (d : Dict) (rows : Dict) : Dict :=
  rows.foldl (fun acc r => if hasKey acc r.1 then dset acc r.1 r.2 else acc) d

/-- The location/salary/title loops of `load_from_db`: plain defaultdict
assignment for every row. -/
def loadPlain (d : Dict) (rows : Dict) : Dict :=
  rows.foldl (fun acc r => dset acc r.1 r.2) d

/-- `JobMarketAnalyzer.load_from_db` (the successful path). -/
def loadFromDb (st : St) (db : Db) : St :=
  { technologies := loadTech st.technologies db.technologies
    locations := loadPlain st.locations db.locations
    salary_ranges := loadPlain st.salary_ranges db.salaries
    job_titles := loadPlain st.job_titles db.job_titles
    job_posts := db.job_posts.map Prod.snd }

/-- Per-post location delta of a key, read off the first match. -/
def locDelta (post : String) (k : String) : Nat :=
  match locMatches post with
  | [] => 0
  | m :: _ => if k = String.mk (stripWs m.2) then 1 else 0

/-- Per-post title delta of a key, read off the first match. -/
def titleDelta (post : String) (k : String) : Nat :=
  match titleMatches post with
  | [] => 0
  | m :: _ => if k = String.mk (stripWs m.2) then 1 else 0

/-- A small populated store, used to instantiate the round-trip theorem. -/
def demoDb : Db :=
  { technologies := [(("python"), 3)], locations := [(("nyc"), 2)],
    salaries := [(("120k"), 4)], job_titles := [(("dev"), 5)],
    job_posts := [] }

/-! ### Helper lemmas about the dictionary operations -/

theorem dget_dinc (d : Dict) (key k : String) :
    dget (dinc d key) k = dget d k + (if k = key then 1 else 0) := by
  induction d with
  | nil =>
    by_cases h : k = key
    · subst h; simp [dinc, dget]
    · simp [dinc, dget, h, Ne.symm h]
  | cons p rest ih =>
    obtain ⟨k1, v⟩ := p
    by_cases h1 : k1 = key
    · subst h1
      by_cases h2 : k1 = k
      · subst h2; simp [dinc, dget]
      · simp [dinc, dget, h2, Ne.symm h2]
    · by_cases h2 : k1 = k
      · subst h2
        simp [dinc, dget, h1, fun hh : k1 = key => h1 hh]
      · simp [dinc, dget, h1, h2, ih]

theorem dget_techUpdate (d : Dict) (ws : List String) (k : String) :
    dget (techUpdate d ws) k =
      dget d k + (if hasKey d k = true ∧ k ∈ ws then 1 else 0) := by
  induction d with
  | nil => simp [techUpdate, dget, hasKey]
  | cons p rest ih =>
    obtain ⟨k1, v⟩ := p
    have hcons : techUpdate ((k1, v) :: rest) ws
        = (if k1 ∈ ws then (k1, v + 1) else (k1, v)) :: techUpdate rest ws := by
      simp only [techUpdate, List.map_cons]
    rw [hcons]
    by_cases hm : k1 ∈ ws
    · rw [if_pos hm]
      by_cases h2 : k1 = k
      · subst h2
        have h3 : hasKey ((k1, v) :: rest) k1 = true := by simp [hasKey]
        simp [dget, h3, hm]
      · have h4 : hasKey ((k1, v) :: rest) k = hasKey rest k := by
          simp [hasKey, h2]
        simp [dget, h2, h4, ih]
    · rw [if_neg hm]
      by_cases h2 : k1 = k
      · subst h2
        have h5 : ¬ (hasKey ((k1, v) :: rest) k1 = true ∧ k1 ∈ ws) :=
          fun hc => hm hc.2
        have h6 : ¬ (hasKey rest k1 = true ∧ k1 ∈ ws) := fun hc => hm hc.2
        simp [dget, h5, h6, ih]
      · have h4 : hasKey ((k1, v) :: rest) k = hasKey rest k := by
          simp [hasKey, h2]
        simp [dget, h2, h4, ih]

theorem hasKey_techUpdate (d : Dict) (ws : List String) (k : String) :
    hasKey (techUpdate d ws) k = hasKey d k := by
  induction d with
  | nil => rfl
  | cons p rest ih =>
    obtain ⟨k1, v⟩ := p
    by_cases hm : k1 ∈ ws
    · simp [techUpdate, hasKey, hm] at ih ⊢
      rw [ih]
    · simp [techUpdate, hasKey, hm] at ih ⊢
      rw [ih]

theorem dget_locUpdate (d : Dict) (post : String) (k : String) :
    dget (locUpdate d post) k = dget d k + locDelta post k := by
  unfold locUpdate locDelta
  cases h : locMatches post with
  | nil => simp
  | cons m ms => rw [dget_dinc]

theorem dget_titleUpdate (d : Dict) (post : String) (k : String) :
    dget (titleUpdate d post) k = dget d k + titleDelta post k := by
  unfold titleUpdate titleDelta
  cases h : titleMatches post with
  | nil => simp
  | cons m ms => rw [dget_dinc]

theorem dget_foldl_dinc (keys : List String) (d : Dict) (k : String) :
    dget (keys.foldl (fun acc s => dinc acc s) d) k =
      dget d k + keys.countP (fun s => decide (s = k)) := by
  induction keys generalizing d with
  | nil => simp [List.countP_nil]
  | cons s rest ih =>
    rw [List.foldl_cons, ih, dget_dinc, List.countP_cons]
    by_cases h : s = k
    · subst h; simp; omega
    · simp [h, Ne.symm h]

theorem dget_salUpdate (d : Dict) (post : String) (k : String) :
    dget (salUpdate d post) k =
      dget d k + (salMatches post).countP (fun s => decide (s = k)) := by
  unfold salUpdate
  exact dget_foldl_dinc _ d k

/-! ### Per-run accumulation lemmas -/

theorem tech_run (l : List String) (st : St) (k : String) :
    dget (runPosts st l).technologies k =
      dget st.technologies k +
        (if hasKey st.technologies k = true then
          l.countP (fun p => decide (k ∈ wordsOf p)) else 0) := by
  induction l generalizing st with
  | nil => simp [runPosts]
  | cons p rest ih =>
    have hstep : (analyzePost st p).technologies
        = techUpdate st.technologies (wordsOf p) := rfl
    have : runPosts st (p :: rest) = runPosts (analyzePost st p) rest := rfl
    rw [this, ih, hstep, dget_techUpdate, hasKey_techUpdate, List.countP_cons]
    by_cases hk : hasKey st.technologies k = true
    · by_cases hm : k ∈ wordsOf p <;> (simp [hk, hm]; try omega)
    · simp [hk]

theorem loc_run (l : List String) (st : St) (k : String) :
    dget (runPosts st l).locations k =
      dget st.locations k + (l.map (fun p => locDelta p k)).sum := by
  induction l generalizing st with
  | nil => simp [runPosts]
  | cons p rest ih =>
    have : runPosts st (p :: rest) = runPosts (analyzePost st p) rest := rfl
    rw [this, ih]
    have hstep : (analyzePost st p).locations = locUpdate st.locations p := rfl
    rw [hstep, dget_locUpdate, List.map_cons, List.sum_cons]
    omega

theorem title_run (l : List String) (st : St) (k : String) :
    dget (runPosts st l).job_titles k =
      dget st.job_titles k + (l.map (fun p => titleDelta p k)).sum := by
  induction l generalizing st with
  | nil => simp [runPosts]
  | cons p rest ih =>
    have : runPosts st (p :: rest) = runPosts (analyzePost st p) rest := rfl
    rw [this, ih]
    have hstep : (analyzePost st p).job_titles = titleUpdate st.job_titles p := rfl
    rw [hstep, dget_titleUpdate, List.map_cons, List.sum_cons]
    omega

theorem sal_run (l : List String) (st : St) (k : String) :
    dget (runPosts st l).salary_ranges k =
      dget st.salary_ranges k +
        (l.map (fun p => (salMatches p).countP (fun s => decide (s = k)))).sum := by
  induction l generalizing st with
  | nil => simp [runPosts]
  | cons p rest ih =>
    have : runPosts st (p :: rest) = runPosts (analyzePost st p) rest := rfl
    rw [this, ih]
    have hstep : (analyzePost st p).salary_ranges = salUpdate st.salary_ranges p := rfl
    rw [hstep, dget_salUpdate, List.map_cons, List.sum_cons]
    omega

/-! ### Helper lemmas about the store operations -/

theorem dbget_upsertAdd_self (t : Dict) (k : String) (c : Nat) :
    dbget (upsertAdd t k c) k = some ((dbget t k).getD 0 + c) := by
  induction t with
  | nil => simp [upsertAdd, dbget]
  | cons p rest ih =>
    obtain ⟨k1, v⟩ := p
    by_cases h : k1 = k
    · subst h; simp [upsertAdd, dbget]
    · simp [upsertAdd, dbget, h, ih]

theorem dbget_upsertAdd_ne (t : Dict) (key k : String) (c : Nat)
    (h : key ≠ k) : dbget (upsertAdd t key c) k = dbget t k := by
  induction t with
  | nil => simp [upsertAdd, dbget, fun hh : key = k => h hh]
  | cons p rest ih =>
    obtain ⟨k1, v⟩ := p
    by_cases h1 : k1 = key
    · subst h1
      simp [upsertAdd, dbget, fun hh : k1 = k => h hh]
    · simp [upsertAdd, dbget, h1, ih]

theorem dbgetD_upsertAdd_le (t : Dict) (key k : String) (c : Nat) :
    (dbget t k).getD 0 ≤ (dbget (upsertAdd t key c) k).getD 0 := by
  by_cases h : key = k
  · subst h
    rw [dbget_upsertAdd_self]
    simp
  · rw [dbget_upsertAdd_ne t key k c h]

theorem dbgetD_upsertAll_le (es : Dict) (t : Dict) (k : String) :
    (dbget t k).getD 0 ≤ (dbget (upsertAll t es) k).getD 0 := by
  induction es generalizing t with
  | nil => simp [upsertAll]
  | cons e rest ih =>
    have : upsertAll t (e :: rest) = upsertAll (upsertAdd t e.1 e.2) rest := rfl
    rw [this]
    exact le_trans (dbgetD_upsertAdd_le t e.1 k e.2) (ih (upsertAdd t e.1 e.2))

theorem dbget_upsertAll_not_mem (es : Dict) (t : Dict) (k : String)
    (h : k ∉ es.map Prod.fst) : dbget (upsertAll t es) k = dbget t k := by
  induction es generalizing t with
  | nil => rfl
  | cons e rest ih =>
    have hne : e.1 ≠ k := by
      intro hh
      exact h (by simp [hh.symm])
    have hrest : k ∉ rest.map Prod.fst := by
      intro hh
      exact h (by simp [hh])
    have hstep : upsertAll t (e :: rest) = upsertAll (upsertAdd t e.1 e.2) rest := rfl
    rw [hstep, ih _ hrest, dbget_upsertAdd_ne _ _ _ _ hne]

theorem dbget_upsertAll_of_mem (es : Dict) (t : Dict) (k : String) (c : Nat)
    (hnd : (es.map Prod.fst).Nodup) (hm : (k, c) ∈ es) :
    dbget (upsertAll t es) k = some ((dbget t k).getD 0 + c) := by
  induction es generalizing t with
  | nil => cases hm
  | cons e rest ih =>
    have hstep : upsertAll t (e :: rest) = upsertAll (upsertAdd t e.1 e.2) rest := rfl
    rw [hstep]
    have hnd1 : e.1 ∉ rest.map Prod.fst ∧ (rest.map Prod.fst).Nodup := by
      rw [List.map_cons] at hnd
      exact List.nodup_cons.mp hnd
    rcases List.mem_cons.mp hm with he | hrest
    · subst he
      rw [dbget_upsertAll_not_mem rest _ k hnd1.1]
      exact dbget_upsertAdd_self t k c
    · have hk : k ∈ rest.map Prod.fst :=
        List.mem_map.mpr ⟨(k, c), hrest, rfl⟩
      have hne : e.1 ≠ k := fun hh => hnd1.1 (hh ▸ hk)
      rw [ih _ hnd1.2 hrest, dbget_upsertAdd_ne _ _ _ _ hne]

theorem dbget_of_mem_nodup (t : Dict) (k : String) (c : Nat)
    (hm : (k, c) ∈ t) (hnd : (t.map Prod.fst).Nodup) : dbget t k = some c := by
  induction t with
  | nil => cases hm
  | cons e rest ih =>
    have hnd1 : e.1 ∉ rest.map Prod.fst ∧ (rest.map Prod.fst).Nodup := by
      rw [List.map_cons] at hnd
      exact List.nodup_cons.mp hnd
    rcases List.mem_cons.mp hm with he | hrest
    · subst he
      simp [dbget]
    · have hk : k ∈ rest.map Prod.fst :=
        List.mem_map.mpr ⟨(k, c), hrest, rfl⟩
      have hne : e.1 ≠ k := fun hh => hnd1.1 (hh ▸ hk)
      obtain ⟨k1, v⟩ := e
      simp only [dbget]
      rw [if_neg (by simpa using hne), ih hrest hnd1.2]

/-! ### Helper lemmas about loading from the store -/

theorem dget_dset_self (d : Dict) (key : String) (c : Nat) :
    dget (dset d key c) key = c := by
  induction d with
  | nil => simp [dset, dget]
  | cons p rest ih =>
    obtain ⟨k1, v⟩ := p
    by_cases h : k1 = key
    · subst h; simp [dset, dget]
    · simp [dset, dget, h, ih]

theorem dget_dset_ne (d : Dict) (key k : String) (c : Nat) (h : key ≠ k) :
    dget (dset d key c) k = dget d k := by
  induction d with
  | nil => simp [dset, dget, fun hh : key = k => h hh]
  | cons p rest ih =>
    obtain ⟨k1, v⟩ := p
    by_cases h1 : k1 = key
    · subst h1
      simp [dset, dget, fun hh : k1 = k => h hh]
    · simp [dset, dget, h1, ih]

theorem hasKey_dset_ne (d : Dict) (key k : String) (c : Nat) (h : key ≠ k) :
    hasKey (dset d key c) k = hasKey d k := by
  induction d with
  | nil => simp [dset, hasKey, fun hh : key = k => h hh]
  | cons p rest ih =>
    obtain ⟨k1, v⟩ := p
    by_cases h1 : k1 = key
    · subst h1
      simp [dset, hasKey, ih]
    · simp [dset, hasKey, h1] at ih ⊢
      rw [ih]

theorem hasKey_cons (k1 : String) (v : Nat) (rest : Dict) (k : String) :
    hasKey ((k1, v) :: rest) k = (decide (k1 = k) || hasKey rest k) := by
  simp [hasKey]

theorem hasKey_dset_self (d : Dict) (key : String) (c : Nat) :
    hasKey (dset d key c) key = true := by
  induction d with
  | nil => simp [dset, hasKey]
  | cons p rest ih =>
    obtain ⟨k1, v⟩ := p
    by_cases h1 : k1 = key
    · subst h1; simp [dset, hasKey]
    · have hstep : dset ((k1, v) :: rest) key c = (k1, v) :: dset rest key c := by
        simp [dset, h1]
      rw [hstep, hasKey_cons, ih, Bool.or_true]

theorem dset_of_not_hasKey (d : Dict) (key : String) (c : Nat)
    (h : hasKey d key = false) : dset d key c = d ++ [(key, c)] := by
  induction d with
  | nil => rfl
  | cons p rest ih =>
    obtain ⟨k1, v⟩ := p
    simp [hasKey] at h
    have hrest : hasKey rest key = false := by
      simp [hasKey]
      exact h.2
    simp [dset, h.1, ih hrest]

theorem hasKey_append (a b : Dict) (k : String) :
    hasKey (a ++ b) k = (hasKey a k || hasKey b k) := by
  simp [hasKey, List.any_append]

theorem loadPlain_acc (rows acc : Dict)
    (hnd : (rows.map Prod.fst).Nodup)
    (hdisj : ∀ r ∈ rows, hasKey acc r.1 = false) :
    loadPlain acc rows = acc ++ rows := by
  induction rows generalizing acc with
  | nil => simp [loadPlain]
  | cons r rest ih =>
    have hstep : loadPlain acc (r :: rest) = loadPlain (dset acc r.1 r.2) rest := rfl
    have hr : hasKey acc r.1 = false := hdisj r (List.mem_cons_self r rest)
    have hset : dset acc r.1 r.2 = acc ++ [r] := by
      rw [dset_of_not_hasKey acc r.1 r.2 hr]
    have hnd2 : (rest.map Prod.fst).Nodup :=
      (List.nodup_cons.mp (by simpa using hnd)).2
    have hnotin : r.1 ∉ rest.map Prod.fst :=
      (List.nodup_cons.mp (by simpa using hnd)).1
    have hdisj2 : ∀ s ∈ rest, hasKey (acc ++ [r]) s.1 = false := by
      intro s hs
      rw [hasKey_append]
      have h1 : hasKey acc s.1 = false := hdisj s (List.mem_cons_of_mem r hs)
      have h2 : hasKey [r] s.1 = false := by
        have : r.1 ≠ s.1 := by
          intro hh
          exact hnotin (hh ▸ List.mem_map.mpr ⟨s, hs, rfl⟩)
        simp [hasKey, this]
      rw [h1, h2]
      rfl
    rw [hstep, hset, ih (acc ++ [r]) hnd2 hdisj2, List.append_assoc]
    rfl

theorem loadPlain_nil (rows : Dict) (hnd : (rows.map Prod.fst).Nodup) :
    loadPlain [] rows = rows := by
  have := loadPlain_acc rows [] hnd (fun r _ => rfl)
  simpa using this

theorem hasKey_iff_keys (d : Dict) (k : String) :
    hasKey d k = true ↔ k ∈ d.map Prod.fst := by
  induction d with
  | nil => simp [hasKey]
  | cons p rest ih =>
    obtain ⟨k1, v⟩ := p
    rw [hasKey_cons]
    simp only [List.map_cons, List.mem_cons, Bool.or_eq_true, decide_eq_true_eq]
    rw [ih]
    constructor
    · rintro (h | h)
      · exact Or.inl h.symm
      · exact Or.inr h
    · rintro (h | h)
      · exact Or.inl h.symm
      · exact Or.inr h

theorem keys_dset_of_hasKey (d : Dict) (key : String) (c : Nat)
    (h : hasKey d key = true) :
    (dset d key c).map Prod.fst = d.map Prod.fst := by
  induction d with
  | nil => simp [hasKey] at h
  | cons p rest ih =>
    obtain ⟨k1, v⟩ := p
    by_cases h1 : k1 = key
    · subst h1; simp [dset]
    · rw [hasKey_cons] at h
      have h2 : hasKey rest key = true := by
        rcases Bool.or_eq_true_iff.mp h with hh | hh
        · exact absurd (of_decide_eq_true hh) h1
        · exact hh
      have hstep : dset ((k1, v) :: rest) key c = (k1, v) :: dset rest key c := by
        simp [dset, h1]
      rw [hstep, List.map_cons, List.map_cons, ih h2]

theorem keys_loadTech (rows d : Dict) :
    (loadTech d rows).map Prod.fst = d.map Prod.fst := by
  induction rows generalizing d with
  | nil => rfl
  | cons r rest ih =>
    have hstep : loadTech d (r :: rest)
        = loadTech (if hasKey d r.1 then dset d r.1 r.2 else d) rest := rfl
    rw [hstep]
    by_cases h : hasKey d r.1 = true
    · rw [if_pos h, ih, keys_dset_of_hasKey d r.1 r.2 h]
    · rw [if_neg (by simpa using h), ih]

theorem hasKey_loadTech (rows d : Dict) (k : String) :
    hasKey (loadTech d rows) k = hasKey d k := by
  have h1 := hasKey_iff_keys (loadTech d rows) k
  have h2 := hasKey_iff_keys d k
  rw [keys_loadTech] at h1
  by_cases hb : hasKey d k = true
  · rw [hb]; exact h1.mpr (h2.mp hb)
  · have h3 : ¬ hasKey (loadTech d rows) k = true :=
      fun hc => hb (h2.mpr (h1.mp hc))
    rw [Bool.not_eq_true] at h3 hb
    rw [h3, hb]

theorem dget_loadTech_not_mem (rows d : Dict) (k : String)
    (h : k ∉ rows.map Prod.fst) : dget (loadTech d rows) k = dget d k := by
  induction rows generalizing d with
  | nil => rfl
  | cons r rest ih =>
    have hstep : loadTech d (r :: rest)
        = loadTech (if hasKey d r.1 then dset d r.1 r.2 else d) rest := rfl
    have hne : r.1 ≠ k := by
      intro hh
      exact h (by simp [hh.symm])
    have hrest : k ∉ rest.map Prod.fst := by
      intro hh
      exact h (by simp [hh])
    rw [hstep]
    by_cases hk : hasKey d r.1 = true
    · rw [if_pos hk, ih _ hrest, dget_dset_ne d r.1 k r.2 hne]
    · rw [if_neg (by simpa using hk), ih _ hrest]

theorem dget_loadTech_mem (rows d : Dict) (k : String) (c : Nat)
    (hnd : (rows.map Prod.fst).Nodup) (hm : (k, c) ∈ rows)
    (hk : hasKey d k = true) : dget (loadTech d rows) k = c := by
  induction rows generalizing d with
  | nil => cases hm
  | cons r rest ih =>
    have hnd1 : r.1 ∉ rest.map Prod.fst ∧ (rest.map Prod.fst).Nodup := by
      rw [List.map_cons] at hnd
      exact List.nodup_cons.mp hnd
    have hstep : loadTech d (r :: rest)
        = loadTech (if hasKey d r.1 then dset d r.1 r.2 else d) rest := rfl
    rw [hstep]
    rcases List.mem_cons.mp hm with he | hrest
    · subst he
      rw [if_pos hk]
      rw [dget_loadTech_not_mem rest _ k hnd1.1]
      exact dget_dset_self d k c
    · have hkr : k ∈ rest.map Prod.fst :=
        List.mem_map.mpr ⟨(k, c), hrest, rfl⟩
      have hne : r.1 ≠ k := fun hh => hnd1.1 (hh ▸ hkr)
      by_cases hd : hasKey d r.1 = true
      · rw [if_pos hd]
        exact ih _ hnd1.2 hrest
          (by rw [hasKey_dset_ne d r.1 k r.2 hne]; exact hk)
      · rw [if_neg (by simpa using hd)]
        exact ih _ hnd1.2 hrest hk

theorem entry_of_dget (d : Dict) (k : String) (h : hasKey d k = true) :
    (k, dget d k) ∈ d := by
  induction d with
  | nil => simp [hasKey] at h
  | cons p rest ih =>
    obtain ⟨k1, v⟩ := p
    by_cases h1 : k1 = k
    · subst h1
      simp [dget]
    · rw [hasKey_cons] at h
      have h2 : hasKey rest k = true := by
        rcases Bool.or_eq_true_iff.mp h with hh | hh
        · exact absurd (of_decide_eq_true hh) h1
        · exact hh
      have hstep : dget ((k1, v) :: rest) k = dget rest k := by
        simp [dget, h1]
      rw [hstep]
      exact List.mem_cons_of_mem _ (ih h2)

theorem keys_initTech : initTech.map Prod.fst = vocab := by
  rw [initTech, List.map_map]
  exact List.map_id vocab

theorem hasKey_initTech (k : String) : hasKey initTech k = true ↔ k ∈ vocab := by
  rw [hasKey_iff_keys, keys_initTech]

theorem vocab_nodup : vocab.Nodup := by decide

/-! ### Claim theorems -/

/-- Claim C1, counterexample: on the post
"offering $120k or $95,000 depending on experience" the salary extractor
does not produce the two claimed signals: the key "95,000" is never
incremented, because the grouped alternative of the pattern requires three
digits before the comma and "95" has only two. -/
theorem c1_counterexample :
    ¬ (dget (analyzePost initSt
          ("offering $120k or $95,000 depending on experience")).salary_ranges
          ("120k") = 1 ∧
       dget (analyzePost initSt
          ("offering $120k or $95,000 depending on experience")).salary_ranges
          ("95,000") = 1) := by
  intro h
  have h0 : dget (analyzePost initSt
      ("offering $120k or $95,000 depending on experience")).salary_ranges
      ("95,000") = 0 := by decide
  rw [h0] at h
  exact absurd h.2 (by decide)

/-- Claim C1 as amended: that post yields exactly one salary signal,
"120k": salary_ranges at "120k" is incremented by 1 and salary_ranges at
"95,000" is unchanged at 0. -/
theorem c1_salary_multiplicity :
    salMatches ("offering $120k or $95,000 depending on experience")
        = [("120k")] ∧
    dget (analyzePost initSt
        ("offering $120k or $95,000 depending on experience")).salary_ranges
        ("120k") = 1 ∧
    dget (analyzePost initSt
        ("offering $120k or $95,000 depending on experience")).salary_ranges
        ("95,000") = 0 := by
  exact ⟨by decide, by decide, by decide⟩

/-- Claim C2: the merge is upsert-with-addition, never overwrite: merging
a memory state with python count 3 into the empty store yields stored
count 3, and merging another with python count 2 into the resulting store
yields 5, not 2. -/
theorem c2_merge_additivity :
    dbget (updateDb { initSt with technologies := dset initTech ("python") 3 }
        emptyDb).technologies ("python") = some 3 ∧
    dbget (updateDb { initSt with technologies := dset initTech ("python") 2 }
        (updateDb { initSt with technologies := dset initTech ("python") 3 }
          emptyDb)).technologies ("python") = some 5 := by
  exact ⟨by decide, by decide⟩

/-- Claim C3: technology matching is exact whole-token and capped at one
increment per post: a post whose only word is "golang" leaves the "go"
counter unchanged, and the post "go go" (the standalone token twice)
increments it by exactly 1. -/
theorem c3_exact_token (st : St)
    (h : hasKey st.technologies ("go") = true) :
    dget (analyzePost st ("golang")).technologies ("go")
        = dget st.technologies ("go") ∧
    dget (analyzePost st ("go go")).technologies ("go")
        = dget st.technologies ("go") + 1 := by
  constructor
  · have hstep : (analyzePost st ("golang")).technologies
        = techUpdate st.technologies (wordsOf ("golang")) := rfl
    rw [hstep, dget_techUpdate]
    have hmem : (("go") : String) ∉ wordsOf ("golang") := by decide
    rw [if_neg (fun hc => hmem hc.2)]
    rfl
  · have hstep : (analyzePost st ("go go")).technologies
        = techUpdate st.technologies (wordsOf ("go go")) := rfl
    rw [hstep, dget_techUpdate]
    have hmem : (("go") : String) ∈ wordsOf ("go go") := by decide
    rw [if_pos ⟨h, hmem⟩]

/-- Witness for C3 at the initial analyzer state. -/
theorem c3_witness :
    dget (analyzePost initSt ("golang")).technologies ("go") = 0 ∧
    dget (analyzePost initSt ("go go")).technologies ("go") = 1 := by
  have h := c3_exact_token initSt (by decide)
  constructor
  · rw [h.1]; decide
  · rw [h.2]; decide

/-- Claim C4: the location extractor records at most one signal per post:
with no match the locations map is untouched; with matches, exactly the
first match's captured phrase, whitespace-trimmed, is incremented by 1;
the demo post "remote based in austin, also based in dallas" produces
exactly one match and exactly one recorded location signal. -/
theorem c4_location_first_only (post : String) (st : St) :
    (locMatches post = [] → (analyzePost st post).locations = st.locations) ∧
    (∀ m ms, locMatches post = m :: ms → ∀ k,
      dget (analyzePost st post).locations k =
        dget st.locations k +
          (if k = String.mk (stripWs m.2) then 1 else 0)) ∧
    (locMatches ("remote based in austin, also based in dallas")).length = 1 ∧
    dtotal (analyzePost initSt
      ("remote based in austin, also based in dallas")).locations = 1 := by
  refine ⟨?_, ?_, by decide, by decide⟩
  · intro hnone
    have hstep : (analyzePost st post).locations = locUpdate st.locations post := rfl
    rw [hstep]
    unfold locUpdate
    rw [hnone]
  · intro m ms hcons k
    have hstep : (analyzePost st post).locations = locUpdate st.locations post := rfl
    rw [hstep, dget_locUpdate]
    unfold locDelta
    rw [hcons]

/-- Witness for C4: a post with no anchor phrase records nothing, and the
demo post records exactly the one captured-and-trimmed phrase. -/
theorem c4_witness :
    (analyzePost initSt ("hello world")).locations = initSt.locations ∧
    dget (analyzePost initSt
        ("remote based in austin, also based in dallas")).locations
        ("based in austin, also based in dallas") = 1 := by
  constructor
  · exact (c4_location_first_only ("hello world") initSt).1 (by decide)
  · have h := (c4_location_first_only
        ("remote based in austin, also based in dallas") initSt).2.1
        ((("remote").data, ("based in austin, also based in dallas").data)) []
        (by decide) ("based in austin, also based in dallas")
    rw [h]
    decide

/-- Claim C5: tokenization strips only the fixed punctuation set from
token edges and preserves plus and hash: a trailing comma and surrounding
parens are removed, "c++" and "c#" survive whole, and a post containing
"c++," increments the "c++" counter and leaves "c" untouched. -/
theorem c5_punctuation (st : St)
    (h : hasKey st.technologies ("c++") = true) :
    String.mk (stripTok ("c++,").data) = ("c++") ∧
    String.mk (stripTok ("(c#)").data) = ("c#") ∧
    dget (analyzePost st ("senior c++, developer wanted")).technologies
        ("c++") = dget st.technologies ("c++") + 1 ∧
    dget (analyzePost st ("senior c++, developer wanted")).technologies
        ("c") = dget st.technologies ("c") := by
  refine ⟨by decide, by decide, ?_, ?_⟩
  · have hstep : (analyzePost st ("senior c++, developer wanted")).technologies
        = techUpdate st.technologies (wordsOf ("senior c++, developer wanted")) := rfl
    rw [hstep, dget_techUpdate]
    have hmem : (("c++") : String) ∈ wordsOf ("senior c++, developer wanted") := by
      decide
    rw [if_pos ⟨h, hmem⟩]
  · have hstep : (analyzePost st ("senior c++, developer wanted")).technologies
        = techUpdate st.technologies (wordsOf ("senior c++, developer wanted")) := rfl
    rw [hstep, dget_techUpdate]
    have hmem : (("c") : String) ∉ wordsOf ("senior c++, developer wanted") := by
      decide
    rw [if_neg (fun hc => hmem hc.2)]
    rfl

/-- Witness for C5 at the initial analyzer state. -/
theorem c5_witness :
    dget (analyzePost initSt
        ("senior c++, developer wanted")).technologies ("c++") = 1 ∧
    dget (analyzePost initSt
        ("senior c++, developer wanted")).technologies ("c") = 0 := by
  have h := c5_punctuation initSt (by decide)
  constructor
  · rw [h.2.2.1]; decide
  · rw [h.2.2.2]; decide

/-- Claim C6: order independence: running the analyzer over any
permutation of a post list from the same starting state yields the same
final count for every key in all four counter maps. -/
theorem c6_order_independence (l1 l2 : List String) (h : l1.Perm l2)
    (st : St) (k : String) :
    dget (runPosts st l1).technologies k
        = dget (runPosts st l2).technologies k ∧
    dget (runPosts st l1).locations k = dget (runPosts st l2).locations k ∧
    dget (runPosts st l1).salary_ranges k
        = dget (runPosts st l2).salary_ranges k ∧
    dget (runPosts st l1).job_titles k
        = dget (runPosts st l2).job_titles k := by
  refine ⟨?_, ?_, ?_, ?_⟩
  · rw [tech_run, tech_run,
      h.countP_eq (fun p => decide (k ∈ wordsOf p))]
  · rw [loc_run, loc_run, (h.map (fun p => locDelta p k)).sum_eq]
  · rw [sal_run, sal_run,
      (h.map (fun p => (salMatches p).countP (fun s => decide (s = k)))).sum_eq]
  · rw [title_run, title_run, (h.map (fun p => titleDelta p k)).sum_eq]

/-- Witness for C6 on a two-post swap. -/
theorem c6_witness :
    dget (runPosts initSt [("go and rust"), ("python go")]).technologies
        ("go") =
    dget (runPosts initSt [("python go"), ("go and rust")]).technologies
        ("go") := by
  exact (c6_order_independence [("go and rust"), ("python go")]
    [("python go"), ("go and rust")] (by decide) initSt ("go")).1

/-- Claim C7: all counters hold Nat counts (non-negative by construction),
and neither analysing a post nor merging into the store ever decreases any
in-memory or stored count. -/
theorem c7_monotone :
    (∀ st post k, dget st.technologies k
        ≤ dget (analyzePost st post).technologies k) ∧
    (∀ st post k, dget st.locations k
        ≤ dget (analyzePost st post).locations k) ∧
    (∀ st post k, dget st.salary_ranges k
        ≤ dget (analyzePost st post).salary_ranges k) ∧
    (∀ st post k, dget st.job_titles k
        ≤ dget (analyzePost st post).job_titles k) ∧
    (∀ st db k, (dbget db.technologies k).getD 0
        ≤ (dbget (updateDb st db).technologies k).getD 0) ∧
    (∀ st db k, (dbget db.locations k).getD 0
        ≤ (dbget (updateDb st db).locations k).getD 0) ∧
    (∀ st db k, (dbget db.salaries k).getD 0
        ≤ (dbget (updateDb st db).salaries k).getD 0) ∧
    (∀ st db k, (dbget db.job_titles k).getD 0
        ≤ (dbget (updateDb st db).job_titles k).getD 0) := by
  refine ⟨?_, ?_, ?_, ?_, ?_, ?_, ?_, ?_⟩
  · intro st post k
    have hstep : (analyzePost st post).technologies
        = techUpdate st.technologies (wordsOf post) := rfl
    rw [hstep, dget_techUpdate]
    exact Nat.le_add_right _ _
  · intro st post k
    have hstep : (analyzePost st post).locations
        = locUpdate st.locations post := rfl
    rw [hstep, dget_locUpdate]
    exact Nat.le_add_right _ _
  · intro st post k
    have hstep : (analyzePost st post).salary_ranges
        = salUpdate st.salary_ranges post := rfl
    rw [hstep, dget_salUpdate]
    exact Nat.le_add_right _ _
  · intro st post k
    have hstep : (analyzePost st post).job_titles
        = titleUpdate st.job_titles post := rfl
    rw [hstep, dget_titleUpdate]
    exact Nat.le_add_right _ _
  · intro st db k
    exact dbgetD_upsertAll_le st.technologies db.technologies k
  · intro st db k
    exact dbgetD_upsertAll_le st.locations db.locations k
  · intro st db k
    exact dbgetD_upsertAll_le st.salary_ranges db.salaries k
  · intro st db k
    exact dbgetD_upsertAll_le st.job_titles db.job_titles k

/-- Claim C8: a persistence failure during the merge is reported to the
caller as the distinct failure kind PersistenceError, the in-memory
counters are returned unchanged (the method body assigns to no field of
the analyzer), and a retry of the merge from that state succeeds with
exactly the full upsert-with-addition result. -/
theorem c8_persistence_failure (st : St) (db : Db) :
    (updateDbTry st db false).1 = st ∧
    (updateDbTry st db false).2
        = Except.error PersistenceError.sqliteError ∧
    (updateDbTry (updateDbTry st db false).1 db true).2
        = Except.ok (updateDb st db) := by
  exact ⟨rfl, rfl, rfl⟩

/-- Claim C9: loading the store into a fresh analyzer and immediately
merging back with no posts analysed in between doubles every stored count:
each vocabulary technology row, and every location, salary and title row,
ends at twice its loaded count (so the load/save round trip is not a
no-op).  The Nodup hypotheses are the UNIQUE column constraints of the
store schema. -/
theorem c9_double_on_roundtrip (db : Db)
    (h1 : (db.technologies.map Prod.fst).Nodup)
    (h2 : (db.locations.map Prod.fst).Nodup)
    (h3 : (db.salaries.map Prod.fst).Nodup)
    (h4 : (db.job_titles.map Prod.fst).Nodup) :
    (∀ k c, (k, c) ∈ db.technologies → k ∈ vocab →
      dbget (updateDb (loadFromDb initSt db) db).technologies k
        = some (2 * c)) ∧
    (∀ k c, (k, c) ∈ db.locations →
      dbget (updateDb (loadFromDb initSt db) db).locations k
        = some (2 * c)) ∧
    (∀ k c, (k, c) ∈ db.salaries →
      dbget (updateDb (loadFromDb initSt db) db).salaries k
        = some (2 * c)) ∧
    (∀ k c, (k, c) ∈ db.job_titles →
      dbget (updateDb (loadFromDb initSt db) db).job_titles k
        = some (2 * c)) := by
  refine ⟨?_, ?_, ?_, ?_⟩
  · intro k c hm hv
    show dbget (upsertAll db.technologies
        (loadTech initTech db.technologies)) k = some (2 * c)
    have hk0 : hasKey initTech k = true := (hasKey_initTech k).mpr hv
    have hdg : dget (loadTech initTech db.technologies) k = c :=
      dget_loadTech_mem db.technologies initTech k c h1 hm hk0
    have hhk : hasKey (loadTech initTech db.technologies) k = true := by
      rw [hasKey_loadTech]; exact hk0
    have hmem : (k, c) ∈ loadTech initTech db.technologies := by
      have h5 := entry_of_dget _ k hhk
      rw [hdg] at h5
      exact h5
    have hknd : ((loadTech initTech db.technologies).map Prod.fst).Nodup := by
      rw [keys_loadTech, keys_initTech]
      exact vocab_nodup
    have hdb : dbget db.technologies k = some c :=
      dbget_of_mem_nodup db.technologies k c hm h1
    have h6 := dbget_upsertAll_of_mem (loadTech initTech db.technologies)
      db.technologies k c hknd hmem
    rw [hdb] at h6
    simpa [two_mul] using h6
  · intro k c hm
    show dbget (upsertAll db.locations (loadPlain [] db.locations)) k
        = some (2 * c)
    rw [loadPlain_nil db.locations h2]
    have hdb : dbget db.locations k = some c :=
      dbget_of_mem_nodup db.locations k c hm h2
    have h6 := dbget_upsertAll_of_mem db.locations db.locations k c h2 hm
    rw [hdb] at h6
    simpa [two_mul] using h6
  · intro k c hm
    show dbget (upsertAll db.salaries (loadPlain [] db.salaries)) k
        = some (2 * c)
    rw [loadPlain_nil db.salaries h3]
    have hdb : dbget db.salaries k = some c :=
      dbget_of_mem_nodup db.salaries k c hm h3
    have h6 := dbget_upsertAll_of_mem db.salaries db.salaries k c h3 hm
    rw [hdb] at h6
    simpa [two_mul] using h6
  · intro k c hm
    show dbget (upsertAll db.job_titles (loadPlain [] db.job_titles)) k
        = some (2 * c)
    rw [loadPlain_nil db.job_titles h4]
    have hdb : dbget db.job_titles k = some c :=
      dbget_of_mem_nodup db.job_titles k c hm h4
    have h6 := dbget_upsertAll_of_mem db.job_titles db.job_titles k c h4 hm
    rw [hdb] at h6
    simpa [two_mul] using h6

/-- Witness for C9 on a small populated store: the loaded technology count
3 is stored back as 6, and the loaded location count 2 as 4. -/
theorem c9_witness :
    dbget (updateDb (loadFromDb initSt demoDb) demoDb).technologies
        ("python") = some 6 ∧
    dbget (updateDb (loadFromDb initSt demoDb) demoDb).locations
        ("nyc") = some 4 := by
  have h := c9_double_on_roundtrip demoDb (by decide) (by decide)
    (by decide) (by decide)
  constructor
  · simpa using h.1 ("python") 3 (by decide) (by decide)
  · simpa using h.2.1 ("nyc") 2 (by decide)

/-- Claim C10: every row that the merge appends to the persisted job_posts
collection carries the constant source label "Hacker News", whatever
scraper produced the post text (the in-memory post list holds no source
information at all). -/
theorem c10_source_label (st : St) (db : Db) (r : String × String)
    (h : r ∈ (updateDb st db).job_posts.drop db.job_posts.length) :
    r.1 = ("Hacker News") := by
  have hrow : (updateDb st db).job_posts
      = db.job_posts ++ st.job_posts.map (fun p => (("Hacker News"), p)) := rfl
  rw [hrow, List.drop_left] at h
  obtain ⟨p, hp, hpe⟩ := List.mem_map.mp h
  rw [← hpe]

/-- Witness for C10: one appended row from a one-post memory state. -/
theorem c10_witness :
    (((("Hacker News"), ("first post"))) : String × String).1
        = ("Hacker News") := by
  exact c10_source_label { initSt with job_posts := [("first post")] }
    emptyDb ((("Hacker News"), ("first post"))) (by decide)
